import Mathlib

/-!
Verification development for the logr structured-logging service.

Shallow embedding of the core components that the checked claims are about:

* level validation and batch ingest (src/app/middleware.py, src/app/routers/logs.py),
* the background embedding pipeline (src/app/embeddings.py),
* reciprocal-rank fusion of ranked search signals (src/app/search_engine.py),
* span-trace tree reconstruction (src/app/routers/spans.py),
* log-trace aggregation (src/app/routers/logs.py),
* period-over-period anomaly detection (src/app/routers/search.py).

Modelling conventions: Python floats are modelled as exact rationals; the
decimal presentation rounding applied to reported scores (round to 6 or 4
decimal places) is a display concern and is not modelled.  UUIDs are modelled
as naturals, timestamps and UTC dates as integers.  Dict iteration order in
Python is insertion order; dicts are modelled as insertion-ordered association
lists.  The stable descending sort performed by sorted(..., reverse=True) is
modelled by insertion sort with the reflexive descending relation, which is
extensionally the same stable sort.
-/

/-! ## String lowering (Python str.lower restricted to ASCII, which covers all
level strings the code compares against) -/

def strLower (s : String) : String := String.mk (s.data.map Char.toLower)

/-! ## Level and event-type validation (src/app/middleware.py lines 123-154) -/

def VALID_LOG_LEVELS : List String :=
  ["debug", "info", "warn", "warning", "error", "fatal", "critical"]

def VALID_EVENT_TYPES : List String :=
  ["prompt", "completion", "tool_call", "tool_result", "retrieval", "context", "system_prompt"]

def MAX_MESSAGE_LENGTH : ℕ := 100000

/-- The five levels the spec says are the only persisted levels. -/
def NORMALIZED_LEVELS : List String := ["debug", "info", "warn", "error", "fatal"]

/-- Embedding of validate_log_level: lower-case, rewrite the two aliases, then
check membership in VALID_LOG_LEVELS; raising ValueError is modelled as
Except.error. -/
def validate_log_level (level : String) : Except String String :=
  let normalized := strLower level
  let normalized := if normalized = "warning" then "warn" else normalized
  let normalized := if normalized = "critical" then "fatal" else normalized
  if normalized ∈ VALID_LOG_LEVELS then Except.ok normalized
  else Except.error ("Invalid log level: " ++ level)

/-- Embedding of validate_event_type. -/
def validate_event_type (event_type : String) : Except String String :=
  if event_type ∈ VALID_EVENT_TYPES then Except.ok event_type
  else Except.error ("Invalid event type: " ++ event_type)

/-- Embedding of validate_message_length. -/
def validate_message_length (message : String) : Except String String :=
  if MAX_MESSAGE_LENGTH < message.length then Except.error "Message too long"
  else Except.ok message

/-! ## Batch ingest (src/app/routers/logs.py, create_logs_batch, lines 282-343)

The batch handler builds a LogEntry per item inside try/except, incrementing
accepted on success and failed on exception, and commits once at the end.  The
loop body performs NO domain validation: the level is merely lower-cased
(log.level.lower()) and the SQLAlchemy constructors raise no exception for any
string field values, so the except branch is unreachable for well-shaped
requests and every entry is persisted as-is. -/

structure BatchEntry where
  service : String
  level : String
  message : String
  events : List String
deriving DecidableEq

structure PersistedEntry where
  service : String
  level : String
  message : String
  events : List String
deriving DecidableEq

structure BatchLogResponse where
  accepted : ℕ
  failed : ℕ
  errors : List String
deriving DecidableEq

/-- Embedding of create_logs_batch: each iteration constructs the row (level
lower-cased, no validators invoked) and increments accepted; the exception
branch cannot fire, so failed stays 0 and the errors list stays empty; the
response truncates errors to 10 as in the code. -/
def create_logs_batch (logs : List BatchEntry) : BatchLogResponse × List PersistedEntry :=
  let rows := logs.map (fun l =>
    { service := l.service
      level := strLower l.level
      message := l.message
      events := l.events : PersistedEntry })
  ({ accepted := logs.length, failed := 0, errors := ([] : List String).take 10 }, rows)

/-! ## Embedding pipeline (src/app/embeddings.py) -/

def EXCLUDED_SERVICES : List String := ["logr", "artemis"]

def EXCLUDED_LEVELS : List String := ["debug"]

def MIN_MESSAGE_LENGTH : ℕ := 20

def BATCH_SIZE : ℕ := 50

def EMBEDDING_MODEL : String := "text-embedding-3-small"

/-- A log_entries row as seen by the pipeline.  Ids are UUIDs modelled as
naturals, timestamps as integers. -/
structure PipeRow where
  id : ℕ
  service : String
  level : String
  message : String
  timestamp : ℤ
  embedding : Option (List ℚ)
  embedding_model : Option String
deriving DecidableEq

/-- Pipeline counters (EmbeddingPipeline attributes).  The UTC date is an
integer day number. -/
structure PipeState where
  daily_count : ℕ
  daily_date : Option ℤ
  total_embedded : ℕ
  total_errors : ℕ
  last_run : Option ℤ
  daily_cap : ℕ
deriving DecidableEq

/-- WHERE clause of the eligibility query in _get_eligible_logs. -/
def eligibleRow (r : PipeRow) : Bool :=
  decide (r.embedding = none) && !(decide (r.service ∈ EXCLUDED_SERVICES))
    && !(decide (r.level ∈ EXCLUDED_LEVELS)) && decide (MIN_MESSAGE_LENGTH ≤ r.message.length)

/-- ORDER BY timestamp DESC relation. -/
def tsDesc : PipeRow → PipeRow → Prop := fun a b => b.timestamp ≤ a.timestamp

instance : DecidableRel tsDesc := fun a b => inferInstanceAs (Decidable (b.timestamp ≤ a.timestamp))

/-- Embedding of _get_eligible_logs: filter by the WHERE clause, order by
timestamp descending, LIMIT, and project (id, message). -/
def get_eligible_logs (db : List PipeRow) (limit : ℕ) : List (ℕ × String) :=
  (((db.filter eligibleRow).insertionSort tsDesc).take limit).map (fun r => (r.id, r.message))

/-- One UPDATE log_entries SET embedding, embedding_model WHERE id = i. -/
def apply_update (db : List PipeRow) (u : ℕ × List ℚ) : List PipeRow :=
  db.map (fun r =>
    if r.id = u.1 then { r with embedding := some u.2, embedding_model := some EMBEDDING_MODEL } else r)

/-- Midnight-UTC reset at the top of _run_cycle. -/
def cycle_reset (st : PipeState) (today : ℤ) : PipeState :=
  if st.daily_date ≠ some today then { st with daily_count := 0, daily_date := some today } else st

/-- batch_limit = min(BATCH_SIZE, daily_cap - daily_count). -/
def cycle_batch_limit (st : PipeState) : ℕ := min BATCH_SIZE (st.daily_cap - st.daily_count)

/-- The write set of a cycle: ids of the selected rows zipped with the
returned vectors, keeping only pairs whose embedding is truthy (the code
guard: if embedding). -/
def cycle_updates (rows : List (ℕ × String)) (embeddings : List (Option (List ℚ))) :
    List (ℕ × List ℚ) :=
  ((rows.map Prod.fst).zip embeddings).filterMap (fun p =>
    match p.2 with
    | some v => if v = [] then none else some (p.1, v)
    | none => none)

/-- Embedding of _run_cycle.  The provider call is abstracted by the
parameter provider: none models any request failure (exception, timeout,
non-2xx), some l models a parsed response body.  The per-row session writes
followed by the single commit are modelled by the one-shot fold over
cycle_updates: on every non-commit exit path the database is returned
unchanged. -/
def run_cycle (st : PipeState) (today now : ℤ) (db : List PipeRow)
    (provider : Option (List (Option (List ℚ)))) : PipeState × List PipeRow :=
  let st1 := cycle_reset st today
  if st1.daily_cap ≤ st1.daily_count then (st1, db)
  else
    let rows := get_eligible_logs db (cycle_batch_limit st1)
    if rows = [] then ({ st1 with last_run := some now }, db)
    else
      match provider with
      | none => ({ st1 with total_errors := st1.total_errors + 1 }, db)
      | some embeddings =>
        if embeddings = [] then ({ st1 with total_errors := st1.total_errors + 1 }, db)
        else
          let updates := cycle_updates rows embeddings
          let db2 := updates.foldl apply_update db
          ({ st1 with
              daily_count := st1.daily_count + updates.length
              total_embedded := st1.total_embedded + updates.length
              last_run := some now }, db2)

/-! ## Reciprocal Rank Fusion (src/app/search_engine.py, rrf_fusion, lines 218-267)

Documents are reduced to their ids (the payload fields are passed through
unchanged by the code and play no role in the fusion).  The three Python dicts
doc_scores, doc_signals and the per-document signal dicts are modelled as
insertion-ordered association lists with the exact get-or-default / overwrite
semantics of the code. -/

def DEFAULT_RRF_K : ℕ := 60

/-- doc_scores[doc_id] = doc_scores.get(doc_id, 0.0) + contribution. -/
def bumpScore : List (ℕ × ℚ) → ℕ → ℚ → List (ℕ × ℚ)
  | [], i, c => [(i, c)]
  | p :: rest, i, c => if p.1 = i then (p.1, p.2 + c) :: rest else p :: bumpScore rest i c

/-- doc_signals[doc_id][signal_name] = contribution (overwrite or append). -/
def setName : List (String × ℚ) → String → ℚ → List (String × ℚ)
  | [], name, c => [(name, c)]
  | p :: rest, name, c => if p.1 = name then (name, c) :: rest else p :: setName rest name c

/-- Outer update of doc_signals for one (doc, signal, contribution) triple. -/
def setDocSignal : List (ℕ × List (String × ℚ)) → ℕ → String → ℚ → List (ℕ × List (String × ℚ))
  | [], i, name, c => [(i, [(name, c)])]
  | p :: rest, i, name, c =>
      if p.1 = i then (p.1, setName p.2 name c) :: rest else p :: setDocSignal rest i name c

/-- Score lookup with default 0 (doc_scores.get semantics used in proofs). -/
def lookupScore : List (ℕ × ℚ) → ℕ → ℚ
  | [], _ => 0
  | p :: rest, i => if p.1 = i then p.2 else lookupScore rest i

/-- Signal-map lookup with default empty. -/
def lookupSignals : List (ℕ × List (String × ℚ)) → ℕ → List (String × ℚ)
  | [], _ => []
  | p :: rest, i => if p.1 = i then p.2 else lookupSignals rest i

/-- The two accumulator dicts of rrf_fusion. -/
structure RRFMaps where
  scores : List (ℕ × ℚ)
  signals : List (ℕ × List (String × ℚ))

/-- Inner loop of rrf_fusion: for rank_0, result in enumerate(results), with
contribution 1 / (k + rank_1). -/
def processDocs (k : ℕ) (name : String) : List ℕ → ℕ → RRFMaps → RRFMaps
  | [], _, acc => acc
  | d :: rest, idx, acc =>
      let contribution : ℚ := 1 / ((k : ℚ) + (idx : ℚ) + 1)
      processDocs k name rest (idx + 1)
        { scores := bumpScore acc.scores d contribution
          signals := setDocSignal acc.signals d name contribution }

/-- Outer loop of rrf_fusion over the ranked lists (dict iteration order). -/
def rrfMaps (L : List (String × List ℕ)) (k : ℕ) : RRFMaps :=
  L.foldl (fun acc p => processDocs k p.1 p.2 0 acc) ⟨[], []⟩

/-- The fused score rrf_fusion assigns to a document. -/
def rrf_doc_score (L : List (String × List ℕ)) (k : ℕ) (d : ℕ) : ℚ :=
  lookupScore (rrfMaps L k).scores d

/-- One fused output entry (payload fields other than the id omitted). -/
structure FusedDoc where
  id : ℕ
  rrf_score : ℚ
  signals : List (String × ℚ)
  similarity : ℚ
deriving DecidableEq

/-- sorted(doc_scores.items(), key=score, reverse=True): stable descending. -/
def fusedGe : (ℕ × ℚ) → (ℕ × ℚ) → Prop := fun a b => b.2 ≤ a.2

instance : DecidableRel fusedGe := fun a b => inferInstanceAs (Decidable (b.2 ≤ a.2))

instance : IsTotal (ℕ × ℚ) fusedGe := ⟨fun a b => le_total b.2 a.2⟩

instance : IsTrans (ℕ × ℚ) fusedGe := ⟨fun _ _ _ h1 h2 => le_trans h2 h1⟩

/-- Embedding of rrf_fusion (k and limit as in the Python signature; the
decimal rounding of the reported floats is presentation and not modelled). -/
def rrf_fusion (L : List (String × List ℕ)) (k : ℕ) (limit : ℕ) : List FusedDoc :=
  let m := rrfMaps L k
  let max_possible : ℚ := (L.length : ℚ) * (1 / ((k : ℚ) + 1))
  ((m.scores.insertionSort fusedGe).map (fun p =>
    { id := p.1
      rrf_score := p.2
      signals := lookupSignals m.signals p.1
      similarity := if 0 < max_possible then p.2 / max_possible else 0 : FusedDoc })).take limit

/-- Specification-side occurrence sum of contributions of document d in one
ranked list starting at 0-based index idx. -/
def contribFrom (k : ℕ) (d : ℕ) : List ℕ → ℕ → ℚ
  | [], _ => 0
  | x :: rest, idx =>
      (if x = d then 1 / ((k : ℚ) + (idx : ℚ) + 1) else 0) + contribFrom k d rest (idx + 1)

/-- Specification-side fused score: the sum over the ranked lists of the
occurrence contributions of d. -/
def rrfScoreSpec (L : List (String × List ℕ)) (k : ℕ) (d : ℕ) : ℚ :=
  (L.map (fun p => contribFrom k d p.2 0)).sum

/-- The claim formula for one list: 1/(k+r) at the 1-based rank r of d. -/
def rankContrib (k : ℕ) (docs : List ℕ) (d : ℕ) : ℚ :=
  if d ∈ docs then 1 / ((k : ℚ) + (docs.indexOf d : ℚ) + 1) else 0

/-- Specification-side fused score stated through 1-based ranks. -/
def rrfRankScore (L : List (String × List ℕ)) (k : ℕ) (d : ℕ) : ℚ :=
  (L.map (fun p => rankContrib k p.2 d)).sum

/-- Specification-side per-signal contribution report for document d. -/
def rrfSignalsSpec (L : List (String × List ℕ)) (k : ℕ) (d : ℕ) : List (String × ℚ) :=
  L.filterMap (fun p =>
    if d ∈ p.2 then some (p.1, 1 / ((k : ℚ) + (p.2.indexOf d : ℚ) + 1)) else none)

/-! ## Span trace tree (src/app/routers/spans.py, get_trace_spans, lines 188-230)

The handler indexes the spans of the trace by span_id, appends each span whose
parent_span_id is truthy and present in the index to the children list of its
parent node, and keeps as root the last iterated span whose parent_span_id is
falsy (None or the empty string).  Spans are modelled by their tree-relevant
fields; the object graph the code builds by mutation is reconstructed
functionally with a recursion fuel that the theorems instantiate with the
number of spans. -/

structure SpanRec where
  span_id : String
  parent_span_id : Option String
deriving DecidableEq

/-- Python truthiness of parent_span_id (None and the empty string are falsy). -/
def parentTruthy (s : SpanRec) : Bool :=
  match s.parent_span_id with
  | none => false
  | some p => !(p == "")

inductive SpanTree where
  | node : String → Option String → List SpanTree → SpanTree

def SpanTree.rootId : SpanTree → String
  | SpanTree.node i _ _ => i

def SpanTree.childrenOf : SpanTree → List SpanTree
  | SpanTree.node _ _ c => c

/-- The spans the handler attaches to the node of pid, in iteration order. -/
def childSpans (spans : List SpanRec) (pid : String) : List SpanRec :=
  spans.filter (fun t => parentTruthy t && decide (t.parent_span_id = some pid))

/-- Functional reconstruction of the mutated node graph below one span. -/
def buildChildren (spans : List SpanRec) : ℕ → SpanRec → SpanTree
  | 0, s => SpanTree.node s.span_id s.parent_span_id []
  | fuel + 1, s =>
      SpanTree.node s.span_id s.parent_span_id
        ((childSpans spans s.span_id).map (buildChildren spans fuel))

/-- Spans the loop considers root candidates (falsy parent_span_id). -/
def rootCandidates (spans : List SpanRec) : List SpanRec :=
  spans.filter (fun s => !(parentTruthy s))

/-- Embedding of the tree construction: root is the LAST root candidate in
iteration order (each assignment overwrites the previous), or none when no
span has a falsy parent_span_id; the returned tree is the subgraph reachable
from that root. -/
def tree_root (spans : List SpanRec) : Option SpanTree :=
  match (rootCandidates spans).getLast? with
  | none => none
  | some r => some (buildChildren spans spans.length r)

mutual

def treeNodes : SpanTree → List SpanTree
  | SpanTree.node i p c => SpanTree.node i p c :: forestNodes c

def forestNodes : List SpanTree → List SpanTree
  | [] => []
  | t :: ts => treeNodes t ++ forestNodes ts

end

/-- A span id occurs somewhere in the tree. -/
def memTree (t : SpanTree) (i : String) : Prop :=
  ∃ n ∈ treeNodes t, SpanTree.rootId n = i

/-- cid occurs as a direct child of a node with id pid. -/
def childEdge (t : SpanTree) (pid cid : String) : Prop :=
  ∃ n ∈ treeNodes t, SpanTree.rootId n = pid ∧ ∃ c ∈ SpanTree.childrenOf n, SpanTree.rootId c = cid

/-- There is a downward parent-pointer chain of exactly n edges from base to s
inside spans. -/
def chainFromB (spans : List SpanRec) : SpanRec → ℕ → SpanRec → Bool
  | base, 0, s => decide (s = base)
  | base, n + 1, s =>
      spans.any (fun c =>
        parentTruthy c && decide (c.parent_span_id = some base.span_id)
          && chainFromB spans c n s)

/-! ## Log trace aggregation (src/app/routers/logs.py, get_trace, lines 460-496) -/

structure TraceLog where
  service : String
  span_id : Option String
  timestamp : ℤ
  duration_ms : Option ℚ
deriving DecidableEq

structure TraceAgg where
  services : List String
  span_count : ℕ
  start_time : ℤ
  end_time : ℤ
  total_duration_ms : Option ℚ
deriving DecidableEq

/-- Embedding of the aggregation part of get_trace: none models the 404 on an
empty result set; services is list(set(..)) (distinct, order immaterial),
span_count counts distinct non-null span ids, start and end are min and max of
the timestamps, and the duration sum is reported as null unless positive. -/
def get_trace (logs : List TraceLog) : Option TraceAgg :=
  match logs with
  | [] => none
  | l :: ls =>
    let total := ((l :: ls).map (fun x => x.duration_ms.getD 0)).sum
    some
      { services := ((l :: ls).map (fun x => x.service)).dedup
        span_count := ((l :: ls).filterMap (fun x => x.span_id)).dedup.length
        start_time := ls.foldl (fun acc x => min acc x.timestamp) l.timestamp
        end_time := ls.foldl (fun acc x => max acc x.timestamp) l.timestamp
        total_duration_ms := if 0 < total then some total else none }

/-! ## Anomaly detection (src/app/routers/search.py, detect_anomalies, lines 379-490)

The two period aggregates are modelled as functions of the rows of each
period; the findings list is built in the order of the code.  Message strings
and the numeric fields of a finding are not needed by the claim and are
omitted. -/

structure AnomRow where
  level : String
  error_type : Option String
  duration_ms : Option ℚ
deriving DecidableEq

structure PeriodStats where
  total : ℕ
  errors : ℕ
  avg_latency : Option ℚ
deriving DecidableEq

/-- The SQL aggregate row of one period: count(*), count(*) filter
(level = error), avg(duration_ms) over the non-null durations. -/
def periodStats (rows : List AnomRow) : PeriodStats :=
  let ds := rows.filterMap (fun r => r.duration_ms)
  { total := rows.length
    errors := (rows.filter (fun r => decide (r.level = "error"))).length
    avg_latency := if ds = [] then none else some (ds.sum / (ds.length : ℚ)) }

structure Finding where
  ftype : String
  severity : String
deriving DecidableEq

/-- Error-rate spike findings: guarded by the Python truthiness of both
period totals (if prev.total and current.total). -/
def rateFindings (cur prev : PeriodStats) : List Finding :=
  if prev.total ≠ 0 ∧ cur.total ≠ 0 then
    if ((prev.errors : ℚ) / (prev.total : ℚ)) * ((3 : ℚ) / 2)
        < ((cur.errors : ℚ) / (cur.total : ℚ)) ∧ 5 < cur.errors then
      [{ ftype := "error_rate_spike"
         severity :=
           if ((prev.errors : ℚ) / (prev.total : ℚ)) * 2 < ((cur.errors : ℚ) / (cur.total : ℚ))
           then "high" else "medium" }]
    else []
  else []

/-- Latency spike findings: guarded by the Python truthiness of both period
averages (if prev.avg_latency and current.avg_latency excludes null and 0). -/
def latencyFindings (cur prev : PeriodStats) : List Finding :=
  match prev.avg_latency, cur.avg_latency with
  | some p, some c =>
      if p ≠ 0 ∧ c ≠ 0 then
        (if p * ((3 : ℚ) / 2) < c then [{ ftype := "latency_spike", severity := "medium" }] else [])
      else []
  | _, _ => []

/-- New-error-type findings: distinct error types of the current window minus
those of the previous window (the SQL EXCEPT). -/
def newTypeFindings (current previous : List AnomRow) : List Finding :=
  if ((current.filterMap (fun r => r.error_type)).dedup).filter
      (fun t => !((previous.filterMap (fun r => r.error_type)).contains t)) ≠ [] then
    [{ ftype := "new_error_types", severity := "medium" }]
  else []

/-- Embedding of the finding construction of detect_anomalies, in the order
the code appends the findings. -/
def detect_anomalies (current previous : List AnomRow) : List Finding :=
  rateFindings (periodStats current) (periodStats previous)
    ++ latencyFindings (periodStats current) (periodStats previous)
    ++ newTypeFindings current previous

/-- Claim-side duration sum with nulls contributing 0. -/
def durSum (logs : List TraceLog) : ℚ := (logs.map (fun x => x.duration_ms.getD 0)).sum

/-! ## Theorems -/

theorem foldl_min_mem (l : List ℤ) (a : ℤ) : l.foldl min a ∈ a :: l := by
  induction l generalizing a with
  | nil => simp
  | cons x xs ih =>
      have h := ih (min a x)
      rw [List.foldl_cons]
      rcases List.mem_cons.mp h with h1 | h1
      · rcases min_choice a x with hm | hm
        · rw [h1, hm]; exact List.mem_cons_self _ _
        · rw [h1, hm]; exact List.mem_cons.mpr (Or.inr (List.mem_cons_self _ _))
      · exact List.mem_cons.mpr (Or.inr (List.mem_cons.mpr (Or.inr h1)))

theorem foldl_min_le (l : List ℤ) (a : ℤ) :
    l.foldl min a ≤ a ∧ ∀ x ∈ l, l.foldl min a ≤ x := by
  induction l generalizing a with
  | nil => simp
  | cons x xs ih =>
      have h := ih (min a x)
      rw [List.foldl_cons]
      refine ⟨le_trans h.1 (min_le_left a x), ?_⟩
      intro y hy
      rcases List.mem_cons.mp hy with h1 | h1
      · rw [h1]; exact le_trans h.1 (min_le_right a x)
      · exact h.2 y h1

theorem foldl_max_mem (l : List ℤ) (a : ℤ) : l.foldl max a ∈ a :: l := by
  induction l generalizing a with
  | nil => simp
  | cons x xs ih =>
      have h := ih (max a x)
      rw [List.foldl_cons]
      rcases List.mem_cons.mp h with h1 | h1
      · rcases max_choice a x with hm | hm
        · rw [h1, hm]; exact List.mem_cons_self _ _
        · rw [h1, hm]; exact List.mem_cons.mpr (Or.inr (List.mem_cons_self _ _))
      · exact List.mem_cons.mpr (Or.inr (List.mem_cons.mpr (Or.inr h1)))

theorem foldl_max_le (l : List ℤ) (a : ℤ) :
    a ≤ l.foldl max a ∧ ∀ x ∈ l, x ≤ l.foldl max a := by
  induction l generalizing a with
  | nil => simp
  | cons x xs ih =>
      have h := ih (max a x)
      rw [List.foldl_cons]
      refine ⟨le_trans (le_max_left a x) h.1, ?_⟩
      intro y hy
      rcases List.mem_cons.mp hy with h1 | h1
      · rw [h1]; exact le_trans (le_max_right a x) h.1
      · exact h.2 y h1

/-- C1: the claim asserts that every accepted ingest entry, including batch
items, has its level validated and normalized into the five canonical values.
The batch handler only lower-cases the level and never invokes
validate_log_level, so a batch entry with level banana is accepted and
persisted verbatim, and WARNING is persisted as warning rather than warn. -/
theorem c1_batch_persists_unvalidated_level :
    (create_logs_batch
        [⟨"svc", "banana", "boom", []⟩, ⟨"svc", "WARNING", "second", []⟩]).1.accepted = 2
    ∧ (create_logs_batch
        [⟨"svc", "banana", "boom", []⟩, ⟨"svc", "WARNING", "second", []⟩]).1.failed = 0
    ∧ ((create_logs_batch
        [⟨"svc", "banana", "boom", []⟩, ⟨"svc", "WARNING", "second", []⟩]).2.map
          PersistedEntry.level) = ["banana", "warning"]
    ∧ "banana" ∉ NORMALIZED_LEVELS
    ∧ "warning" ∉ NORMALIZED_LEVELS
    ∧ (validate_log_level "banana").isOk = false
    ∧ (validate_log_level "WARNING").toOption = some "warn" := by
  decide

/-- C2: for a batch of size B = 1 whose single entry is invalid (K = 1, bad
level), the handler still accepts it, so accepted = 1 exceeds B - K = 0; the
bookkeeping accepted + failed = B and the 10-error truncation hold. -/
theorem c2_batch_accepts_invalid_entry :
    (create_logs_batch [⟨"svc", "banana", "boom", []⟩]).1.accepted
        + (create_logs_batch [⟨"svc", "banana", "boom", []⟩]).1.failed = 1
    ∧ (create_logs_batch [⟨"svc", "banana", "boom", []⟩]).1.errors.length ≤ 10
    ∧ (validate_log_level "banana").isOk = false
    ∧ ¬((create_logs_batch [⟨"svc", "banana", "boom", []⟩]).1.accepted ≤ 1 - 1) := by
  decide

/-- C9 counterexample: for a trace with one entry whose duration_ms is null,
the claim says total_duration_ms equals the sum with nulls contributing 0,
that is 0; the handler reports null because the sum is not positive. -/
theorem c9_counterexample :
    ((get_trace [⟨"svc", none, 0, none⟩]).map TraceAgg.total_duration_ms) = some none
    ∧ durSum [⟨"svc", none, 0, none⟩] = 0 := by
  constructor
  · simp [get_trace]
  · simp [durSum]

/-- C9 (amended): for a non-empty trace the aggregation returns the distinct
services, the count of distinct non-null span ids, the minimum and maximum
timestamps, and the duration sum (nulls as 0) when that sum is positive and
null otherwise. -/
theorem c9_trace_aggregates (logs : List TraceLog) (h : logs ≠ []) :
    ∃ agg, get_trace logs = some agg
      ∧ agg.services.Nodup
      ∧ (∀ s, s ∈ agg.services ↔ s ∈ logs.map TraceLog.service)
      ∧ agg.span_count = (logs.filterMap TraceLog.span_id).toFinset.card
      ∧ agg.start_time ∈ logs.map TraceLog.timestamp
      ∧ (∀ l ∈ logs, agg.start_time ≤ l.timestamp)
      ∧ agg.end_time ∈ logs.map TraceLog.timestamp
      ∧ (∀ l ∈ logs, l.timestamp ≤ agg.end_time)
      ∧ agg.total_duration_ms = (if 0 < durSum logs then some (durSum logs) else none) := by
  match logs with
  | [] => exact absurd rfl h
  | l :: ls =>
      have hmin : ls.foldl (fun acc x => min acc x.timestamp) l.timestamp
          = (ls.map TraceLog.timestamp).foldl min l.timestamp := by
        rw [List.foldl_map]
      have hmax : ls.foldl (fun acc x => max acc x.timestamp) l.timestamp
          = (ls.map TraceLog.timestamp).foldl max l.timestamp := by
        rw [List.foldl_map]
      refine ⟨_, rfl, ?_, ?_, ?_, ?_, ?_, ?_, ?_, ?_⟩
      · exact List.nodup_dedup _
      · intro s; exact List.mem_dedup
      · exact (List.card_toFinset _).symm
      · show ls.foldl (fun acc x => min acc x.timestamp) l.timestamp ∈ _
        rw [List.map_cons, hmin]
        exact foldl_min_mem (ls.map TraceLog.timestamp) l.timestamp
      · intro x hx
        show ls.foldl (fun acc x => min acc x.timestamp) l.timestamp ≤ _
        rw [hmin]
        rcases List.mem_cons.mp hx with h1 | h1
        · rw [h1]
          exact (foldl_min_le (ls.map TraceLog.timestamp) l.timestamp).1
        · exact (foldl_min_le (ls.map TraceLog.timestamp) l.timestamp).2 x.timestamp
            (List.mem_map_of_mem TraceLog.timestamp h1)
      · show ls.foldl (fun acc x => max acc x.timestamp) l.timestamp ∈ _
        rw [List.map_cons, hmax]
        exact foldl_max_mem (ls.map TraceLog.timestamp) l.timestamp
      · intro x hx
        show _ ≤ ls.foldl (fun acc x => max acc x.timestamp) l.timestamp
        rw [hmax]
        rcases List.mem_cons.mp hx with h1 | h1
        · rw [h1]
          exact (foldl_max_le (ls.map TraceLog.timestamp) l.timestamp).1
        · exact (foldl_max_le (ls.map TraceLog.timestamp) l.timestamp).2 x.timestamp
            (List.mem_map_of_mem TraceLog.timestamp h1)
      · rfl

/-- C9 witness: the amended aggregation theorem applied to a concrete
two-entry trace. -/
theorem c9_trace_aggregates_witness :
    ∃ agg, get_trace [⟨"a", some "s1", 5, some 100⟩, ⟨"b", none, 3, some 200⟩] = some agg
      ∧ agg.services.Nodup
      ∧ (∀ s, s ∈ agg.services ↔
            s ∈ ([⟨"a", some "s1", 5, some 100⟩, ⟨"b", none, 3, some 200⟩] : List TraceLog).map
              TraceLog.service)
      ∧ agg.span_count =
          (([⟨"a", some "s1", 5, some 100⟩, ⟨"b", none, 3, some 200⟩] : List TraceLog).filterMap
            TraceLog.span_id).toFinset.card
      ∧ agg.start_time ∈
          ([⟨"a", some "s1", 5, some 100⟩, ⟨"b", none, 3, some 200⟩] : List TraceLog).map
            TraceLog.timestamp
      ∧ (∀ l ∈ ([⟨"a", some "s1", 5, some 100⟩, ⟨"b", none, 3, some 200⟩] : List TraceLog),
            agg.start_time ≤ l.timestamp)
      ∧ agg.end_time ∈
          ([⟨"a", some "s1", 5, some 100⟩, ⟨"b", none, 3, some 200⟩] : List TraceLog).map
            TraceLog.timestamp
      ∧ (∀ l ∈ ([⟨"a", some "s1", 5, some 100⟩, ⟨"b", none, 3, some 200⟩] : List TraceLog),
            l.timestamp ≤ agg.end_time)
      ∧ agg.total_duration_ms =
          (if 0 < durSum [⟨"a", some "s1", 5, some 100⟩, ⟨"b", none, 3, some 200⟩] then
            some (durSum [⟨"a", some "s1", 5, some 100⟩, ⟨"b", none, 3, some 200⟩]) else none) :=
  c9_trace_aggregates [⟨"a", some "s1", 5, some 100⟩, ⟨"b", none, 3, some 200⟩] (by decide)

/-- C10: the anomaly endpoint emits no error-rate finding when either period
is empty, no latency finding when either average is null or zero, and counts
only rows whose level is exactly error in the error-rate numerator (appending
fatal rows does not change it). -/
theorem mem_rateFindings (cur prev : PeriodStats) (f : Finding)
    (hf : f ∈ rateFindings cur prev) : f.ftype = "error_rate_spike" := by
  unfold rateFindings at hf
  split at hf
  · split at hf
    · rw [List.mem_singleton] at hf
      rw [hf]
    · simp at hf
  · simp at hf

theorem mem_latencyFindings (cur prev : PeriodStats) (f : Finding)
    (hf : f ∈ latencyFindings cur prev) : f.ftype = "latency_spike" := by
  unfold latencyFindings at hf
  revert hf
  split
  · intro hf
    split at hf
    · split at hf
      · rw [List.mem_singleton] at hf
        rw [hf]
      · simp at hf
    · simp at hf
  · intro hf
    simp at hf

theorem mem_newTypeFindings (current previous : List AnomRow) (f : Finding)
    (hf : f ∈ newTypeFindings current previous) : f.ftype = "new_error_types" := by
  unfold newTypeFindings at hf
  split at hf
  · rw [List.mem_singleton] at hf
    rw [hf]
  · simp at hf

theorem rateFindings_empty_of_zero (cur prev : PeriodStats)
    (h : prev.total = 0 ∨ cur.total = 0) : rateFindings cur prev = [] := by
  unfold rateFindings
  rw [if_neg]
  rcases h with h | h <;> simp [h]

theorem latencyFindings_empty_of_null_or_zero (cur prev : PeriodStats)
    (h : prev.avg_latency = none ∨ prev.avg_latency = some 0 ∨
         cur.avg_latency = none ∨ cur.avg_latency = some 0) :
    latencyFindings cur prev = [] := by
  unfold latencyFindings
  split
  · rename_i p c heqp heqc
    rcases h with h | h | h | h
    · rw [heqp] at h; exact absurd h (by simp)
    · rw [heqp] at h
      rw [Option.some.injEq] at h
      rw [if_neg (by simp [h])]
    · rw [heqc] at h; exact absurd h (by simp)
    · rw [heqc] at h
      rw [Option.some.injEq] at h
      rw [if_neg (by simp [h])]
  · rfl

/-- C10: the anomaly endpoint emits no error-rate finding when either period
is empty, no latency finding when either average is null or zero, and counts
only rows whose level is exactly error in the error-rate numerator (appending
fatal rows does not change it). -/
theorem c10_anomaly_guards (current previous : List AnomRow) :
    ((periodStats previous).total = 0 ∨ (periodStats current).total = 0 →
        ∀ f ∈ detect_anomalies current previous, f.ftype ≠ "error_rate_spike")
    ∧ ((periodStats previous).avg_latency = none ∨ (periodStats previous).avg_latency = some 0 ∨
        (periodStats current).avg_latency = none ∨ (periodStats current).avg_latency = some 0 →
        ∀ f ∈ detect_anomalies current previous, f.ftype ≠ "latency_spike")
    ∧ (∀ extra, (∀ r ∈ extra, r.level = "fatal") →
        (periodStats (current ++ extra)).errors = (periodStats current).errors) := by
  refine ⟨?_, ?_, ?_⟩
  · intro h f hf
    unfold detect_anomalies at hf
    rw [rateFindings_empty_of_zero _ _ h] at hf
    rw [List.nil_append, List.mem_append] at hf
    rcases hf with hf | hf
    · rw [mem_latencyFindings _ _ _ hf]; decide
    · rw [mem_newTypeFindings _ _ _ hf]; decide
  · intro h f hf
    unfold detect_anomalies at hf
    rw [latencyFindings_empty_of_null_or_zero _ _ h] at hf
    rw [List.append_nil, List.mem_append] at hf
    rcases hf with hf | hf
    · rw [mem_rateFindings _ _ _ hf]; decide
    · rw [mem_newTypeFindings _ _ _ hf]; decide
  · intro extra hextra
    simp only [periodStats, List.filter_append, List.length_append]
    have hnil : extra.filter (fun r => decide (r.level = "error")) = [] := by
      rw [List.filter_eq_nil_iff]
      intro a ha
      simp [hextra a ha]
    simp [hnil]

/-- C10 witness: a current window with many errors raises no error-rate
finding over an empty previous window; a null-average period raises no
latency finding; fatal rows do not count as errors. -/
theorem c10_anomaly_guards_witness :
    (∀ f ∈ detect_anomalies (List.replicate 7 ⟨"error", some "E", none⟩) [],
        f.ftype ≠ "error_rate_spike")
    ∧ (∀ f ∈ detect_anomalies (List.replicate 7 ⟨"error", some "E", none⟩) [],
        f.ftype ≠ "latency_spike")
    ∧ (periodStats ([⟨"info", none, none⟩] ++ [⟨"fatal", none, none⟩])).errors =
        (periodStats [⟨"info", none, none⟩]).errors :=
  ⟨(c10_anomaly_guards (List.replicate 7 ⟨"error", some "E", none⟩) []).1 (Or.inl (by decide)),
   (c10_anomaly_guards (List.replicate 7 ⟨"error", some "E", none⟩) []).2.1 (Or.inl (by decide)),
   (c10_anomaly_guards [⟨"info", none, none⟩] []).2.2 [⟨"fatal", none, none⟩] (by decide)⟩

theorem cycle_reset_cap (st : PipeState) (today : ℤ) :
    (cycle_reset st today).daily_cap = st.daily_cap := by
  unfold cycle_reset; split <;> rfl

theorem cycle_reset_errors (st : PipeState) (today : ℤ) :
    (cycle_reset st today).total_errors = st.total_errors := by
  unfold cycle_reset; split <;> rfl

theorem cycle_reset_embedded (st : PipeState) (today : ℤ) :
    (cycle_reset st today).total_embedded = st.total_embedded := by
  unfold cycle_reset; split <;> rfl

theorem cycle_reset_same (st : PipeState) (today : ℤ) (h : st.daily_date = some today) :
    cycle_reset st today = st := by
  unfold cycle_reset
  rw [if_neg]
  simp [h]

theorem cycle_reset_count_le (st : PipeState) (today : ℤ)
    (h : st.daily_date = some today → st.daily_count ≤ st.daily_cap) :
    (cycle_reset st today).daily_count ≤ st.daily_cap := by
  unfold cycle_reset
  split
  · exact Nat.zero_le _
  · rename_i hdate
    rw [not_not] at hdate
    exact h hdate

theorem run_cycle_eq_capped (st : PipeState) (today now : ℤ) (db : List PipeRow)
    (provider : Option (List (Option (List ℚ))))
    (h : (cycle_reset st today).daily_cap ≤ (cycle_reset st today).daily_count) :
    run_cycle st today now db provider = (cycle_reset st today, db) := by
  simp only [run_cycle]
  rw [if_pos h]

theorem run_cycle_eq_noneligible (st : PipeState) (today now : ℤ) (db : List PipeRow)
    (provider : Option (List (Option (List ℚ))))
    (h1 : ¬ (cycle_reset st today).daily_cap ≤ (cycle_reset st today).daily_count)
    (h2 : get_eligible_logs db (cycle_batch_limit (cycle_reset st today)) = []) :
    run_cycle st today now db provider = ({ cycle_reset st today with last_run := some now }, db) := by
  simp only [run_cycle]
  rw [if_neg h1, if_pos h2]

theorem run_cycle_eq_fail_none (st : PipeState) (today now : ℤ) (db : List PipeRow)
    (h1 : ¬ (cycle_reset st today).daily_cap ≤ (cycle_reset st today).daily_count)
    (h2 : get_eligible_logs db (cycle_batch_limit (cycle_reset st today)) ≠ []) :
    run_cycle st today now db none =
      ({ cycle_reset st today with total_errors := (cycle_reset st today).total_errors + 1 }, db) := by
  simp only [run_cycle]
  rw [if_neg h1, if_neg h2]

theorem run_cycle_eq_fail_empty (st : PipeState) (today now : ℤ) (db : List PipeRow)
    (h1 : ¬ (cycle_reset st today).daily_cap ≤ (cycle_reset st today).daily_count)
    (h2 : get_eligible_logs db (cycle_batch_limit (cycle_reset st today)) ≠ []) :
    run_cycle st today now db (some []) =
      ({ cycle_reset st today with total_errors := (cycle_reset st today).total_errors + 1 }, db) := by
  simp only [run_cycle]
  rw [if_neg h1, if_neg h2]
  rfl

theorem run_cycle_eq_success (st : PipeState) (today now : ℤ) (db : List PipeRow)
    (embs : List (Option (List ℚ)))
    (h1 : ¬ (cycle_reset st today).daily_cap ≤ (cycle_reset st today).daily_count)
    (h2 : get_eligible_logs db (cycle_batch_limit (cycle_reset st today)) ≠ [])
    (h3 : embs ≠ []) :
    run_cycle st today now db (some embs) =
      ({ cycle_reset st today with
          daily_count := (cycle_reset st today).daily_count +
            (cycle_updates (get_eligible_logs db (cycle_batch_limit (cycle_reset st today)))
              embs).length
          total_embedded := (cycle_reset st today).total_embedded +
            (cycle_updates (get_eligible_logs db (cycle_batch_limit (cycle_reset st today)))
              embs).length
          last_run := some now },
        (cycle_updates (get_eligible_logs db (cycle_batch_limit (cycle_reset st today)))
          embs).foldl apply_update db) := by
  simp only [run_cycle]
  rw [if_neg h1, if_neg h2]
  rw [if_neg h3]

theorem mem_foldl_apply_update (updates : List (ℕ × List ℚ)) (db : List PipeRow) (r : PipeRow)
    (hmem : r ∈ db) (hid : r.id ∉ updates.map Prod.fst) :
    r ∈ updates.foldl apply_update db := by
  induction updates generalizing db with
  | nil => exact hmem
  | cons u us ih =>
      rw [List.map_cons, List.mem_cons, not_or] at hid
      have hr : r ∈ apply_update db u := by
        unfold apply_update
        have hfr : (fun x : PipeRow =>
            if x.id = u.1 then
              { x with embedding := some u.2, embedding_model := some EMBEDDING_MODEL } else x) r
            = r := if_neg hid.1
        exact hfr ▸ List.mem_map_of_mem _ hmem
      exact ih (apply_update db u) hr hid.2

theorem mem_eligible_ids (db : List PipeRow) (limit : ℕ) (i : ℕ)
    (h : i ∈ (get_eligible_logs db limit).map Prod.fst) :
    ∃ row ∈ db, eligibleRow row = true ∧ row.id = i := by
  unfold get_eligible_logs at h
  rw [List.map_map] at h
  obtain ⟨row, hrow, heq⟩ := List.mem_map.mp h
  have h1 : row ∈ (db.filter eligibleRow).insertionSort tsDesc := List.take_subset _ _ hrow
  have h2 : row ∈ db.filter eligibleRow := (List.perm_insertionSort tsDesc _).subset h1
  rw [List.mem_filter] at h2
  exact ⟨row, h2.1, h2.2, heq⟩

theorem cycle_updates_ids (rows : List (ℕ × String)) (embs : List (Option (List ℚ)))
    (u : ℕ × List ℚ) (h : u ∈ cycle_updates rows embs) : u.1 ∈ rows.map Prod.fst := by
  unfold cycle_updates at h
  obtain ⟨p, hp, heq⟩ := List.mem_filterMap.mp h
  obtain ⟨a, b⟩ := p
  have h1 := List.of_mem_zip hp
  rcases b with _ | v
  · exact absurd heq (by simp)
  · have heq2 : (if v = [] then none else some (a, v)) = some u := heq
    by_cases hv : v = []
    · rw [if_pos hv] at heq2
      exact absurd heq2 (by simp)
    · rw [if_neg hv] at heq2
      rw [Option.some.injEq] at heq2
      rw [← heq2]
      exact h1.1

theorem length_cycle_updates_le (rows : List (ℕ × String)) (embs : List (Option (List ℚ))) :
    (cycle_updates rows embs).length ≤ rows.length := by
  unfold cycle_updates
  refine le_trans (List.length_filterMap_le _ _) ?_
  rw [List.length_zip, List.length_map]
  exact min_le_left _ _

theorem length_get_eligible_le (db : List PipeRow) (limit : ℕ) :
    (get_eligible_logs db limit).length ≤ limit := by
  unfold get_eligible_logs
  rw [List.length_map, List.length_take]
  exact min_le_left _ _

/-- C3: a row of an excluded service, of debug level, with a short message or
with an existing embedding is never selected by the eligibility query and
never has its embedding or embedding_model written by a cycle. -/
theorem c3_excluded_rows_untouched (st : PipeState) (today now : ℤ) (db : List PipeRow)
    (provider : Option (List (Option (List ℚ)))) (r : PipeRow)
    (hmem : r ∈ db)
    (hexc : r.service ∈ EXCLUDED_SERVICES ∨ r.level ∈ EXCLUDED_LEVELS ∨
        r.message.length < MIN_MESSAGE_LENGTH ∨ r.embedding ≠ none)
    (hids : (db.map PipeRow.id).Nodup) :
    (∀ limit, r.id ∉ (get_eligible_logs db limit).map Prod.fst) ∧
    r ∈ (run_cycle st today now db provider).2 := by
  have hnot : ¬ eligibleRow r = true := by
    intro hE
    simp only [eligibleRow, Bool.and_eq_true, Bool.not_eq_true', decide_eq_true_eq,
      decide_eq_false_iff_not] at hE
    obtain ⟨⟨⟨he, hs⟩, hl⟩, hlen⟩ := hE
    rcases hexc with h | h | h | h
    · exact hs h
    · exact hl h
    · omega
    · exact h he
  have hsel : ∀ limit, r.id ∉ (get_eligible_logs db limit).map Prod.fst := by
    intro limit hin
    obtain ⟨row, hrowdb, helig, hrowid⟩ := mem_eligible_ids db limit r.id hin
    have : row = r := List.inj_on_of_nodup_map hids hrowdb hmem hrowid
    rw [this] at helig
    exact hnot helig
  refine ⟨hsel, ?_⟩
  by_cases h1 : (cycle_reset st today).daily_cap ≤ (cycle_reset st today).daily_count
  · rw [run_cycle_eq_capped st today now db provider h1]
    exact hmem
  · by_cases h2 : get_eligible_logs db (cycle_batch_limit (cycle_reset st today)) = []
    · rw [run_cycle_eq_noneligible st today now db provider h1 h2]
      exact hmem
    · rcases provider with _ | embs
      · rw [run_cycle_eq_fail_none st today now db h1 h2]
        exact hmem
      · by_cases h3 : embs = []
        · rw [h3, run_cycle_eq_fail_empty st today now db h1 h2]
          exact hmem
        · rw [run_cycle_eq_success st today now db embs h1 h2 h3]
          apply mem_foldl_apply_update _ _ _ hmem
          intro hin
          obtain ⟨u, hu, huid⟩ := List.mem_map.mp hin
          have := cycle_updates_ids _ _ u hu
          rw [huid] at this
          exact hsel _ this

/-- C3 witness: the main theorem applied to a one-row database whose row has
the excluded service logr; neither the selection nor the cycle touches it. -/
theorem c3_excluded_rows_untouched_witness :
    (1 ∉ (get_eligible_logs [⟨1, "logr", "info", "a sufficiently long message", 0, none, none⟩]
        50).map Prod.fst)
    ∧ (⟨1, "logr", "info", "a sufficiently long message", 0, none, none⟩ : PipeRow) ∈
        (run_cycle ⟨0, some 0, 0, 0, none, 100⟩ 0 7
          [⟨1, "logr", "info", "a sufficiently long message", 0, none, none⟩] none).2 :=
  ⟨(c3_excluded_rows_untouched ⟨0, some 0, 0, 0, none, 100⟩ 0 7
      [⟨1, "logr", "info", "a sufficiently long message", 0, none, none⟩] none
      ⟨1, "logr", "info", "a sufficiently long message", 0, none, none⟩
      (by decide) (Or.inl (by decide)) (by decide)).1 50,
   (c3_excluded_rows_untouched ⟨0, some 0, 0, 0, none, 100⟩ 0 7
      [⟨1, "logr", "info", "a sufficiently long message", 0, none, none⟩] none
      ⟨1, "logr", "info", "a sufficiently long message", 0, none, none⟩
      (by decide) (Or.inl (by decide)) (by decide)).2⟩

/-- C4: provided the counter respected the cap before the cycle (always true
from the daily reset onward), it still respects it after: a capped cycle does
nothing, and any other cycle processes at most min(50, cap - count) rows. -/
theorem c4_daily_cap (st : PipeState) (today now : ℤ) (db : List PipeRow)
    (provider : Option (List (Option (List ℚ))))
    (h : st.daily_date = some today → st.daily_count ≤ st.daily_cap) :
    (run_cycle st today now db provider).1.daily_count ≤ st.daily_cap
    ∧ (st.daily_date = some today → st.daily_cap ≤ st.daily_count →
        run_cycle st today now db provider = (st, db))
    ∧ ∃ d, (run_cycle st today now db provider).1.total_embedded = st.total_embedded + d
        ∧ (run_cycle st today now db provider).1.daily_count = (cycle_reset st today).daily_count + d
        ∧ d ≤ min BATCH_SIZE (st.daily_cap - (cycle_reset st today).daily_count) := by
  have hle := cycle_reset_count_le st today h
  have hcap := cycle_reset_cap st today
  have hemb := cycle_reset_embedded st today
  refine ⟨?_, ?_, ?_⟩
  · by_cases h1 : (cycle_reset st today).daily_cap ≤ (cycle_reset st today).daily_count
    · rw [run_cycle_eq_capped st today now db provider h1]
      exact hle
    · by_cases h2 : get_eligible_logs db (cycle_batch_limit (cycle_reset st today)) = []
      · rw [run_cycle_eq_noneligible st today now db provider h1 h2]
        exact hle
      · rcases provider with _ | embs
        · rw [run_cycle_eq_fail_none st today now db h1 h2]
          exact hle
        · by_cases h3 : embs = []
          · rw [h3, run_cycle_eq_fail_empty st today now db h1 h2]
            exact hle
          · rw [run_cycle_eq_success st today now db embs h1 h2 h3]
            have hb : (cycle_updates
                (get_eligible_logs db (cycle_batch_limit (cycle_reset st today))) embs).length ≤
                cycle_batch_limit (cycle_reset st today) :=
              le_trans (length_cycle_updates_le _ _) (length_get_eligible_le _ _)
            have hb2 : (cycle_updates
                (get_eligible_logs db (cycle_batch_limit (cycle_reset st today))) embs).length ≤
                st.daily_cap - (cycle_reset st today).daily_count := by
              refine le_trans hb ?_
              unfold cycle_batch_limit
              rw [hcap]
              exact min_le_right _ _
            have hcnt : (cycle_reset st today).daily_count < st.daily_cap := by
              rw [not_le, hcap] at h1
              exact h1
            show (cycle_reset st today).daily_count + (cycle_updates
              (get_eligible_logs db (cycle_batch_limit (cycle_reset st today))) embs).length ≤
              st.daily_cap
            omega
  · intro hdate hge
    have hres := cycle_reset_same st today hdate
    rw [run_cycle_eq_capped st today now db provider (by rw [hres]; exact hge), hres]
  · by_cases h1 : (cycle_reset st today).daily_cap ≤ (cycle_reset st today).daily_count
    · rw [run_cycle_eq_capped st today now db provider h1]
      exact ⟨0, by rw [hemb]; rfl, rfl, Nat.zero_le _⟩
    · by_cases h2 : get_eligible_logs db (cycle_batch_limit (cycle_reset st today)) = []
      · rw [run_cycle_eq_noneligible st today now db provider h1 h2]
        exact ⟨0, by rw [hemb]; rfl, rfl, Nat.zero_le _⟩
      · rcases provider with _ | embs
        · rw [run_cycle_eq_fail_none st today now db h1 h2]
          exact ⟨0, by rw [hemb]; rfl, rfl, Nat.zero_le _⟩
        · by_cases h3 : embs = []
          · rw [h3, run_cycle_eq_fail_empty st today now db h1 h2]
            exact ⟨0, by rw [hemb]; rfl, rfl, Nat.zero_le _⟩
          · rw [run_cycle_eq_success st today now db embs h1 h2 h3]
            refine ⟨(cycle_updates
                (get_eligible_logs db (cycle_batch_limit (cycle_reset st today))) embs).length,
              by rw [hemb], rfl, ?_⟩
            have hb : (cycle_updates
                (get_eligible_logs db (cycle_batch_limit (cycle_reset st today))) embs).length ≤
                cycle_batch_limit (cycle_reset st today) :=
              le_trans (length_cycle_updates_le _ _) (length_get_eligible_le _ _)
            refine le_trans hb ?_
            unfold cycle_batch_limit
            rw [hcap]

/-- C4 witness: with counter 40 of cap 45 on the same day and a one-row
eligible database, the cycle respects the cap, the capped case is vacuous, and
the processed count is bounded by min(50, 45 - 40). -/
theorem c4_daily_cap_witness :
    (run_cycle ⟨40, some 0, 0, 0, none, 45⟩ 0 7
        [⟨1, "svc", "info", "a sufficiently long message", 0, none, none⟩]
        (some [some [1]])).1.daily_count ≤ 45
    ∧ ∃ d, (run_cycle ⟨40, some 0, 0, 0, none, 45⟩ 0 7
          [⟨1, "svc", "info", "a sufficiently long message", 0, none, none⟩]
          (some [some [1]])).1.total_embedded = 0 + d
        ∧ (run_cycle ⟨40, some 0, 0, 0, none, 45⟩ 0 7
            [⟨1, "svc", "info", "a sufficiently long message", 0, none, none⟩]
            (some [some [1]])).1.daily_count =
          (cycle_reset ⟨40, some 0, 0, 0, none, 45⟩ 0).daily_count + d
        ∧ d ≤ min BATCH_SIZE (45 - (cycle_reset ⟨40, some 0, 0, 0, none, 45⟩ 0).daily_count) :=
  ⟨(c4_daily_cap ⟨40, some 0, 0, 0, none, 45⟩ 0 7
      [⟨1, "svc", "info", "a sufficiently long message", 0, none, none⟩]
      (some [some [1]]) (fun _ => by decide)).1,
   (c4_daily_cap ⟨40, some 0, 0, 0, none, 45⟩ 0 7
      [⟨1, "svc", "info", "a sufficiently long message", 0, none, none⟩]
      (some [some [1]]) (fun _ => by decide)).2.2⟩

/-- C5: in a cycle that reaches the provider call, a failed request increments
total_errors and returns with the database unchanged, and a successful
request leaves total_errors unchanged and commits the whole write set of the
batch by a single fold (one commit), never a partial prefix. -/
theorem c5_single_commit_or_no_write (st : PipeState) (today now : ℤ) (db : List PipeRow)
    (provider : Option (List (Option (List ℚ))))
    (hcap : (cycle_reset st today).daily_count < st.daily_cap)
    (hrows : get_eligible_logs db (cycle_batch_limit (cycle_reset st today)) ≠ []) :
    (provider = none →
        run_cycle st today now db provider =
          ({ cycle_reset st today with total_errors := st.total_errors + 1 }, db))
    ∧ (∀ embs, provider = some embs → embs ≠ [] →
        (run_cycle st today now db provider).2 =
          (cycle_updates (get_eligible_logs db (cycle_batch_limit (cycle_reset st today)))
            embs).foldl apply_update db
        ∧ (run_cycle st today now db provider).1.total_errors = st.total_errors
        ∧ (run_cycle st today now db provider).1.last_run = some now) := by
  have h1 : ¬ (cycle_reset st today).daily_cap ≤ (cycle_reset st today).daily_count := by
    rw [cycle_reset_cap]
    exact not_le.mpr hcap
  constructor
  · intro hp
    rw [hp, run_cycle_eq_fail_none st today now db h1 hrows, cycle_reset_errors]
  · intro embs hp hne
    rw [hp, run_cycle_eq_success st today now db embs h1 hrows hne]
    exact ⟨rfl, cycle_reset_errors st today, rfl⟩

/-- C5 witness: the theorem applied with a failing provider on a fresh state
and a one-row eligible database. -/
theorem c5_single_commit_or_no_write_witness :
    run_cycle ⟨0, some 0, 0, 0, none, 100⟩ 0 7
        [⟨1, "svc", "info", "a sufficiently long message", 0, none, none⟩] none =
      ({ cycle_reset ⟨0, some 0, 0, 0, none, 100⟩ 0 with total_errors := 0 + 1 },
        [⟨1, "svc", "info", "a sufficiently long message", 0, none, none⟩]) :=
  (c5_single_commit_or_no_write ⟨0, some 0, 0, 0, none, 100⟩ 0 7
      [⟨1, "svc", "info", "a sufficiently long message", 0, none, none⟩] none
      (by decide) (by decide)).1 rfl

theorem rootId_buildChildren (spans : List SpanRec) (fuel : ℕ) (base : SpanRec) :
    SpanTree.rootId (buildChildren spans fuel base) = base.span_id := by
  cases fuel <;> rfl

theorem self_mem_treeNodes (t : SpanTree) : t ∈ treeNodes t := by
  cases t
  rw [treeNodes]
  exact List.mem_cons_self _ _

theorem subset_forestNodes (cs : List SpanTree) (c : SpanTree) (hc : c ∈ cs) :
    ∀ x ∈ treeNodes c, x ∈ forestNodes cs := by
  induction cs with
  | nil => exact absurd hc (List.not_mem_nil c)
  | cons t ts ih =>
      intro x hx
      rw [forestNodes, List.mem_append]
      rcases List.mem_cons.mp hc with h1 | h1
      · exact Or.inl (h1 ▸ hx)
      · exact Or.inr (ih h1 x hx)

theorem treeNodes_subset_of_child (t c : SpanTree) (hc : c ∈ SpanTree.childrenOf t) :
    ∀ x ∈ treeNodes c, x ∈ treeNodes t := by
  intro x hx
  cases t with
  | node i p cs =>
      rw [treeNodes]
      exact List.mem_cons.mpr (Or.inr (subset_forestNodes cs c hc x hx))

theorem memTree_of_child (t c : SpanTree) (hc : c ∈ SpanTree.childrenOf t) (i : String)
    (h : memTree c i) : memTree t i := by
  obtain ⟨n, hn, hid⟩ := h
  exact ⟨n, treeNodes_subset_of_child t c hc n hn, hid⟩

theorem childEdge_of_child (t c : SpanTree) (hc : c ∈ SpanTree.childrenOf t) (pid cid : String)
    (h : childEdge c pid cid) : childEdge t pid cid := by
  obtain ⟨n, hn, hid, hcc⟩ := h
  exact ⟨n, treeNodes_subset_of_child t c hc n hn, hid, hcc⟩

theorem getLast_eq_of_forall (l : List SpanRec) (r : SpanRec) (hne : l ≠ [])
    (hall : ∀ x ∈ l, x = r) : l.getLast? = some r := by
  match l, hne with
  | a :: as, _ =>
      rw [List.getLast?_eq_getLast (a :: as) (by simp)]
      exact congrArg some (hall _ (List.getLast_mem (by simp)))

theorem chain_mem_buildTree (spans : List SpanRec) (n : ℕ) :
    ∀ (fuel : ℕ) (base s : SpanRec), n < fuel → chainFromB spans base n s = true →
      memTree (buildChildren spans fuel base) s.span_id ∧
      (0 < n → ∃ pid, s.parent_span_id = some pid ∧
          childEdge (buildChildren spans fuel base) pid s.span_id) := by
  induction n with
  | zero =>
      intro fuel base s hfuel hchain
      rw [chainFromB, decide_eq_true_eq] at hchain
      rw [hchain]
      refine ⟨⟨buildChildren spans fuel base, self_mem_treeNodes _, rootId_buildChildren _ _ _⟩, ?_⟩
      intro h0
      exact absurd h0 (lt_irrefl 0)
  | succ n ih =>
      intro fuel base s hfuel hchain
      match fuel, hfuel with
      | f + 1, hfuel =>
          have hf : n < f := Nat.lt_of_succ_lt_succ hfuel
          rw [chainFromB, List.any_eq_true] at hchain
          obtain ⟨c, hcmem, hcond⟩ := hchain
          rw [Bool.and_eq_true, Bool.and_eq_true] at hcond
          obtain ⟨⟨htr, hpar⟩, hrest⟩ := hcond
          rw [decide_eq_true_eq] at hpar
          have hcchild : c ∈ childSpans spans base.span_id := by
            rw [childSpans, List.mem_filter, Bool.and_eq_true]
            exact ⟨hcmem, htr, by rw [decide_eq_true_eq]; exact hpar⟩
          have htc : buildChildren spans f c ∈
              SpanTree.childrenOf (buildChildren spans (f + 1) base) := by
        
            rw [buildChildren]
            exact List.mem_map_of_mem _ hcchild
          have hih := ih f c s hf hrest
          refine ⟨memTree_of_child _ _ htc _ hih.1, ?_⟩
          intro _
          rcases Nat.eq_zero_or_pos n with hn0 | hnpos
          · subst hn0
            rw [chainFromB, decide_eq_true_eq] at hrest
            subst hrest
            refine ⟨base.span_id, hpar, ?_⟩
            refine ⟨buildChildren spans (f + 1) base, self_mem_treeNodes _,
              rootId_buildChildren _ _ _, buildChildren spans f s, htc, ?_⟩
            exact rootId_buildChildren _ _ _
          · obtain ⟨pid, hpid, hedge⟩ := hih.2 hnpos
            exact ⟨pid, hpid, childEdge_of_child _ _ htc _ _ hedge⟩

/-- C8 counterexample: a trace whose only span has a parent_span_id absent
from the trace.  The claim says the returned tree has exactly one root, namely
that span; the handler only promotes spans with a null parent_span_id to
root, so it returns no tree at all. -/
theorem c8_counterexample :
    tree_root [⟨"a", some "missing"⟩] = none
    ∧ (⟨"a", some "missing"⟩ : SpanRec).parent_span_id = some "missing"
    ∧ ∀ t ∈ ([⟨"a", some "missing"⟩] : List SpanRec), t.span_id ≠ "missing" := by
  refine ⟨rfl, rfl, ?_⟩
  intro t ht
  rw [List.mem_singleton] at ht
  rw [ht]
  decide

/-- C8 (amended): for spans with distinct span_ids of which exactly one has a
falsy parent_span_id, when every parent chain reaches that span, the endpoint
returns a tree whose single root is that span, every span of the trace occurs
in the tree, and every non-root span hangs directly below its parent (its
parent is its immediate ancestor). -/
theorem c8_trace_tree (spans : List SpanRec) (r : SpanRec)
    (hr : r ∈ spans) (hroot : parentTruthy r = false)
    (huniq : ∀ s ∈ spans, parentTruthy s = false → s = r)
    (hchain : ∀ s ∈ spans, ∃ n, n < spans.length ∧ chainFromB spans r n s = true) :
    ∃ t, tree_root spans = some t
      ∧ SpanTree.rootId t = r.span_id
      ∧ (∀ s ∈ spans, memTree t s.span_id)
      ∧ (∀ s ∈ spans, s ≠ r →
          ∃ pid, s.parent_span_id = some pid ∧ childEdge t pid s.span_id) := by
  have hcand : rootCandidates spans ≠ [] := by
    intro hnil
    have : r ∈ rootCandidates spans := by
      rw [rootCandidates, List.mem_filter]
      exact ⟨hr, by rw [hroot]; rfl⟩
    rw [hnil] at this
    exact List.not_mem_nil r this
  have hall : ∀ x ∈ rootCandidates spans, x = r := by
    intro x hx
    rw [rootCandidates, List.mem_filter, Bool.not_eq_true'] at hx
    exact huniq x hx.1 hx.2
  have hlast : (rootCandidates spans).getLast? = some r :=
    getLast_eq_of_forall _ r hcand hall
  refine ⟨buildChildren spans spans.length r, ?_, rootId_buildChildren _ _ _, ?_, ?_⟩
  · rw [tree_root, hlast]
  · intro s hs
    obtain ⟨n, hn, hc⟩ := hchain s hs
    exact (chain_mem_buildTree spans n spans.length r s hn hc).1
  · intro s hs hne
    obtain ⟨n, hn, hc⟩ := hchain s hs
    rcases Nat.eq_zero_or_pos n with hn0 | hnpos
    · subst hn0
      rw [chainFromB, decide_eq_true_eq] at hc
      exact absurd hc hne
    · exact (chain_mem_buildTree spans n spans.length r s hn hc).2 hnpos

/-- C8 witness: a two-span trace (root plus child): the amended theorem
applied to it yields the root tree, both spans present, and the child hanging
below the root. -/
theorem c8_trace_tree_witness :
    ∃ t, tree_root [⟨"root", none⟩, ⟨"child", some "root"⟩] = some t
      ∧ SpanTree.rootId t = (⟨"root", none⟩ : SpanRec).span_id
      ∧ (∀ s ∈ ([⟨"root", none⟩, ⟨"child", some "root"⟩] : List SpanRec), memTree t s.span_id)
      ∧ (∀ s ∈ ([⟨"root", none⟩, ⟨"child", some "root"⟩] : List SpanRec),
          s ≠ ⟨"root", none⟩ →
          ∃ pid, s.parent_span_id = some pid ∧ childEdge t pid s.span_id) :=
  c8_trace_tree [⟨"root", none⟩, ⟨"child", some "root"⟩] ⟨"root", none⟩
    (by decide) (by decide) (by decide)
    (by
      intro s hs
      rcases List.mem_cons.mp hs with h1 | h1
      · exact ⟨0, by decide, by rw [h1]; decide⟩
      · rw [List.mem_singleton] at h1
        exact ⟨1, by decide, by rw [h1]; decide⟩)

theorem lookupScore_bumpScore_same (m : List (ℕ × ℚ)) (i : ℕ) (c : ℚ) :
    lookupScore (bumpScore m i c) i = lookupScore m i + c := by
  induction m with
  | nil => simp [bumpScore, lookupScore]
  | cons p rest ih =>
      by_cases h : p.1 = i
      · rw [bumpScore, if_pos h, lookupScore, if_pos h, lookupScore, if_pos h]
      · rw [bumpScore, if_neg h, lookupScore, if_neg h, lookupScore, if_neg h]
        exact ih

theorem lookupScore_bumpScore_other (m : List (ℕ × ℚ)) (i j : ℕ) (c : ℚ) (h : j ≠ i) :
    lookupScore (bumpScore m i c) j = lookupScore m j := by
  induction m with
  | nil =>
      rw [bumpScore, lookupScore, lookupScore]
      rw [if_neg (fun hij => h (Eq.symm hij))]
      rw [lookupScore]
  | cons p rest ih =>
      by_cases hp : p.1 = i
      · rw [bumpScore, if_pos hp, lookupScore, lookupScore]
        have hne : ¬ p.1 = j := fun hj => h (by rw [← hj, hp])
        rw [if_neg hne, if_neg hne]
      · rw [bumpScore, if_neg hp, lookupScore, lookupScore]
        by_cases hj : p.1 = j
        · rw [if_pos hj, if_pos hj]
        · rw [if_neg hj, if_neg hj]
          exact ih

theorem lookupScore_processDocs (k : ℕ) (name : String) (docs : List ℕ) :
    ∀ (idx : ℕ) (acc : RRFMaps) (d : ℕ),
      lookupScore (processDocs k name docs idx acc).scores d =
        lookupScore acc.scores d + contribFrom k d docs idx := by
  induction docs with
  | nil =>
      intro idx acc d
      rw [processDocs, contribFrom, add_zero]
  | cons x rest ih =>
      intro idx acc d
      rw [processDocs, contribFrom, ih]
      by_cases h : x = d
      · rw [if_pos h]
        show lookupScore (bumpScore acc.scores x _) d + _ = _
        rw [h, lookupScore_bumpScore_same, add_assoc]
      · rw [if_neg h]
        show lookupScore (bumpScore acc.scores x _) d + _ = _
        rw [lookupScore_bumpScore_other _ _ _ _ (fun hd => h hd.symm), zero_add]

theorem lookupScore_foldl (L : List (String × List ℕ)) (k : ℕ) :
    ∀ (acc : RRFMaps) (d : ℕ),
      lookupScore (L.foldl (fun acc p => processDocs k p.1 p.2 0 acc) acc).scores d =
        lookupScore acc.scores d + rrfScoreSpec L k d := by
  induction L with
  | nil =>
      intro acc d
      rw [List.foldl_nil, rrfScoreSpec, List.map_nil, List.sum_nil, add_zero]
  | cons p rest ih =>
      intro acc d
      rw [List.foldl_cons, ih, lookupScore_processDocs]
      have hsp : rrfScoreSpec (p :: rest) k d = contribFrom k d p.2 0 + rrfScoreSpec rest k d := by
        rw [rrfScoreSpec, rrfScoreSpec, List.map_cons, List.sum_cons]
      rw [hsp]
      exact add_assoc _ _ _

theorem rrf_doc_score_eq_spec (L : List (String × List ℕ)) (k : ℕ) (d : ℕ) :
    rrf_doc_score L k d = rrfScoreSpec L k d := by
  rw [rrf_doc_score, rrfMaps, lookupScore_foldl]
  show (0 : ℚ) + _ = _
  rw [zero_add]

theorem contribFrom_eq_zero (k d : ℕ) (docs : List ℕ) (h : d ∉ docs) :
    ∀ idx, contribFrom k d docs idx = 0 := by
  induction docs with
  | nil => intro idx; rw [contribFrom]
  | cons x rest ih =>
      intro idx
      rw [List.mem_cons, not_or] at h
      rw [contribFrom, if_neg (fun hx => h.1 hx.symm), ih h.2, zero_add]

theorem contribFrom_eq_rank (k d : ℕ) (docs : List ℕ) (hnd : docs.Nodup) :
    ∀ idx, contribFrom k d docs idx =
      if d ∈ docs then 1 / ((k : ℚ) + ((idx + docs.indexOf d : ℕ) : ℚ) + 1) else 0 := by
  induction docs with
  | nil => intro idx; rw [contribFrom]; simp
  | cons x rest ih =>
      intro idx
      rw [List.nodup_cons] at hnd
      by_cases h : x = d
      · rw [contribFrom, if_pos h, h, contribFrom_eq_zero k d rest (h ▸ hnd.1),
          add_zero, if_pos (List.mem_cons_self d rest), List.indexOf_cons_self, Nat.add_zero]
      · rw [contribFrom, if_neg h, ih hnd.2, zero_add]
        by_cases hm : d ∈ rest
        · rw [if_pos hm, if_pos (List.mem_cons.mpr (Or.inr hm)),
            List.indexOf_cons_ne rest h]
          have : (idx + 1 + rest.indexOf d : ℕ) = (idx + (rest.indexOf d).succ : ℕ) := by omega
          rw [this]
        · rw [if_neg hm, if_neg (by rw [List.mem_cons, not_or]; exact ⟨fun hd => h hd.symm, hm⟩)]

theorem rankContrib_eq_contrib (k d : ℕ) (docs : List ℕ) (hnd : docs.Nodup) :
    contribFrom k d docs 0 = rankContrib k docs d := by
  rw [contribFrom_eq_rank k d docs hnd 0, rankContrib]
  by_cases h : d ∈ docs
  · rw [if_pos h, if_pos h, Nat.zero_add]
  · rw [if_neg h, if_neg h]

theorem rrfScoreSpec_eq_rank (L : List (String × List ℕ)) (k : ℕ) (d : ℕ)
    (hnd : ∀ p ∈ L, p.2.Nodup) : rrfScoreSpec L k d = rrfRankScore L k d := by
  rw [rrfScoreSpec, rrfRankScore]
  exact congrArg List.sum
    (List.map_congr_left (fun p hp => rankContrib_eq_contrib k d p.2 (hnd p hp)))

theorem mem_keys_bumpScore (m : List (ℕ × ℚ)) (i : ℕ) (c : ℚ) (j : ℕ) :
    j ∈ (bumpScore m i c).map Prod.fst ↔ j ∈ m.map Prod.fst ∨ j = i := by
  induction m with
  | nil => simp [bumpScore]
  | cons p rest ih =>
      by_cases hp : p.1 = i
      · rw [bumpScore, if_pos hp, List.map_cons, List.map_cons]
        constructor
        · exact Or.inl
        · rintro (h | h)
          · exact h
          · rw [← hp] at h
            rw [List.mem_cons]
            exact Or.inl h
      · rw [bumpScore, if_neg hp, List.map_cons, List.map_cons, List.mem_cons, List.mem_cons,
          ih, or_assoc]

theorem nodup_keys_bumpScore (m : List (ℕ × ℚ)) (i : ℕ) (c : ℚ)
    (h : (m.map Prod.fst).Nodup) : ((bumpScore m i c).map Prod.fst).Nodup := by
  induction m with
  | nil => simp [bumpScore]
  | cons p rest ih =>
      rw [List.map_cons, List.nodup_cons] at h
      by_cases hp : p.1 = i
      · rw [bumpScore, if_pos hp, List.map_cons, List.nodup_cons]
        exact h
      · rw [bumpScore, if_neg hp, List.map_cons, List.nodup_cons]
        refine ⟨?_, ih h.2⟩
        rw [mem_keys_bumpScore]
        rintro (hm | hm)
        · exact h.1 hm
        · exact hp hm

theorem lookupScore_eq_of_mem (m : List (ℕ × ℚ)) (h : (m.map Prod.fst).Nodup)
    (p : ℕ × ℚ) (hp : p ∈ m) : lookupScore m p.1 = p.2 := by
  induction m with
  | nil => exact absurd hp (List.not_mem_nil p)
  | cons q rest ih =>
      rw [List.map_cons, List.nodup_cons] at h
      rcases List.mem_cons.mp hp with h1 | h1
      · rw [h1, lookupScore, if_pos rfl]
      · rw [lookupScore]
        have hne : ¬ q.1 = p.1 := by
          intro he
          exact h.1 (he ▸ List.mem_map_of_mem Prod.fst h1)
        rw [if_neg hne]
        exact ih h.2 h1

theorem mem_keys_processDocs (k : ℕ) (name : String) (docs : List ℕ) :
    ∀ (idx : ℕ) (acc : RRFMaps) (j : ℕ),
      j ∈ (processDocs k name docs idx acc).scores.map Prod.fst ↔
        j ∈ acc.scores.map Prod.fst ∨ j ∈ docs := by
  induction docs with
  | nil =>
      intro idx acc j
      rw [processDocs]
      simp
  | cons x rest ih =>
      intro idx acc j
      rw [processDocs, ih, mem_keys_bumpScore, List.mem_cons, or_assoc]

theorem nodup_keys_processDocs (k : ℕ) (name : String) (docs : List ℕ) :
    ∀ (idx : ℕ) (acc : RRFMaps), (acc.scores.map Prod.fst).Nodup →
      ((processDocs k name docs idx acc).scores.map Prod.fst).Nodup := by
  induction docs with
  | nil => intro idx acc h; rw [processDocs]; exact h
  | cons x rest ih =>
      intro idx acc h
      rw [processDocs]
      exact ih _ _ (nodup_keys_bumpScore _ _ _ h)

theorem mem_keys_foldl (L : List (String × List ℕ)) (k : ℕ) :
    ∀ (acc : RRFMaps) (j : ℕ),
      j ∈ (L.foldl (fun acc p => processDocs k p.1 p.2 0 acc) acc).scores.map Prod.fst ↔
        j ∈ acc.scores.map Prod.fst ∨ ∃ p ∈ L, j ∈ p.2 := by
  induction L with
  | nil =>
      intro acc j
      rw [List.foldl_nil]
      simp
  | cons p rest ih =>
      intro acc j
      rw [List.foldl_cons, ih, mem_keys_processDocs, List.exists_mem_cons_iff, or_assoc]

theorem mem_keys_rrfMaps (L : List (String × List ℕ)) (k : ℕ) (j : ℕ) :
    j ∈ (rrfMaps L k).scores.map Prod.fst ↔ ∃ p ∈ L, j ∈ p.2 := by
  rw [rrfMaps, mem_keys_foldl]
  simp

theorem nodup_keys_rrfMaps (L : List (String × List ℕ)) (k : ℕ) :
    ((rrfMaps L k).scores.map Prod.fst).Nodup := by
  rw [rrfMaps]
  have : ∀ (acc : RRFMaps), (acc.scores.map Prod.fst).Nodup →
      ((L.foldl (fun acc p => processDocs k p.1 p.2 0 acc) acc).scores.map Prod.fst).Nodup := by
    induction L with
    | nil => intro acc h; exact h
    | cons p rest ih =>
        intro acc h
        rw [List.foldl_cons]
        exact ih _ (nodup_keys_processDocs _ _ _ _ _ h)
  exact this ⟨[], []⟩ (by simp)

theorem setName_fresh (sig : List (String × ℚ)) (name : String) (c : ℚ)
    (h : name ∉ sig.map Prod.fst) : setName sig name c = sig ++ [(name, c)] := by
  induction sig with
  | nil => rw [setName, List.nil_append]
  | cons p rest ih =>
      rw [List.map_cons, List.mem_cons, not_or] at h
      rw [setName, if_neg (fun he => h.1 he.symm), ih h.2, List.cons_append]

theorem lookupSignals_setDocSignal_same (m : List (ℕ × List (String × ℚ))) (i : ℕ)
    (name : String) (c : ℚ) :
    lookupSignals (setDocSignal m i name c) i = setName (lookupSignals m i) name c := by
  induction m with
  | nil => simp [setDocSignal, lookupSignals, setName]
  | cons p rest ih =>
      by_cases hp : p.1 = i
      · rw [setDocSignal, if_pos hp, lookupSignals, if_pos hp, lookupSignals, if_pos hp]
      · rw [setDocSignal, if_neg hp, lookupSignals, if_neg hp, lookupSignals, if_neg hp]
        exact ih

theorem lookupSignals_setDocSignal_other (m : List (ℕ × List (String × ℚ))) (i j : ℕ)
    (name : String) (c : ℚ) (h : j ≠ i) :
    lookupSignals (setDocSignal m i name c) j = lookupSignals m j := by
  induction m with
  | nil =>
      have hne : i ≠ j := fun hij => h hij.symm
      simp [setDocSignal, lookupSignals, hne]
  | cons p rest ih =>
      by_cases hp : p.1 = i
      · rw [setDocSignal, if_pos hp, lookupSignals, lookupSignals]
        have hne : ¬ p.1 = j := fun hj => h (by rw [← hj, hp])
        rw [if_neg hne, if_neg hne]
      · rw [setDocSignal, if_neg hp, lookupSignals, lookupSignals]
        by_cases hj : p.1 = j
        · rw [if_pos hj, if_pos hj]
        · rw [if_neg hj, if_neg hj]
          exact ih

theorem lookupSignals_processDocs_notmem (k : ℕ) (name : String) (docs : List ℕ) :
    ∀ (idx : ℕ) (acc : RRFMaps) (d : ℕ), d ∉ docs →
      lookupSignals (processDocs k name docs idx acc).signals d =
        lookupSignals acc.signals d := by
  induction docs with
  | nil => intro idx acc d _; rw [processDocs]
  | cons x rest ih =>
      intro idx acc d h
      rw [List.mem_cons, not_or] at h
      rw [processDocs, ih _ _ _ h.2]
      exact lookupSignals_setDocSignal_other _ _ _ _ _ h.1

theorem lookupSignals_processDocs (k : ℕ) (name : String) (docs : List ℕ) (hnd : docs.Nodup) :
    ∀ (idx : ℕ) (acc : RRFMaps) (d : ℕ),
      lookupSignals (processDocs k name docs idx acc).signals d =
        if d ∈ docs then
          setName (lookupSignals acc.signals d) name
            (1 / ((k : ℚ) + ((idx + docs.indexOf d : ℕ) : ℚ) + 1))
        else lookupSignals acc.signals d := by
  induction docs with
  | nil => intro idx acc d; rw [processDocs]; simp
  | cons x rest ih =>
      rw [List.nodup_cons] at hnd
      intro idx acc d
      by_cases hx : x = d
      · rw [if_pos (hx ▸ List.mem_cons_self x rest)]
        rw [processDocs, lookupSignals_processDocs_notmem _ _ _ _ _ _ (hx ▸ hnd.1)]
        rw [hx, lookupSignals_setDocSignal_same, List.indexOf_cons_self, Nat.add_zero]
      · rw [processDocs, ih hnd.2]
        have hxd : d ≠ x := fun hd => hx hd.symm
        by_cases hm : d ∈ rest
        · rw [if_pos hm, if_pos (List.mem_cons.mpr (Or.inr hm)),
            lookupSignals_setDocSignal_other _ _ _ _ _ hxd, List.indexOf_cons_ne rest hx]
          have : (idx + 1 + rest.indexOf d : ℕ) = (idx + (rest.indexOf d).succ : ℕ) := by omega
          rw [this]
        · rw [if_neg hm, if_neg (by rw [List.mem_cons, not_or]; exact ⟨hxd, hm⟩),
            lookupSignals_setDocSignal_other _ _ _ _ _ hxd]

theorem rrfSignalsSpec_cons_mem (p : String × List ℕ) (rest : List (String × List ℕ))
    (k d : ℕ) (hd : d ∈ p.2) :
    rrfSignalsSpec (p :: rest) k d =
      (p.1, 1 / ((k : ℚ) + (p.2.indexOf d : ℚ) + 1)) :: rrfSignalsSpec rest k d := by
  rw [rrfSignalsSpec, rrfSignalsSpec, List.filterMap_cons, if_pos hd]

theorem rrfSignalsSpec_cons_notmem (p : String × List ℕ) (rest : List (String × List ℕ))
    (k d : ℕ) (hd : d ∉ p.2) :
    rrfSignalsSpec (p :: rest) k d = rrfSignalsSpec rest k d := by
  rw [rrfSignalsSpec, rrfSignalsSpec, List.filterMap_cons, if_neg hd]

theorem signals_foldl (k d : ℕ) :
    ∀ (L : List (String × List ℕ)) (acc : RRFMaps),
      (∀ p ∈ L, p.2.Nodup) → (L.map Prod.fst).Nodup →
      (∀ nm ∈ (lookupSignals acc.signals d).map Prod.fst, nm ∉ L.map Prod.fst) →
      lookupSignals (L.foldl (fun acc p => processDocs k p.1 p.2 0 acc) acc).signals d =
        lookupSignals acc.signals d ++ rrfSignalsSpec L k d := by
  intro L
  induction L with
  | nil =>
      intro acc _ _ _
      rw [List.foldl_nil, rrfSignalsSpec, List.filterMap_nil, List.append_nil]
  | cons p rest ih =>
      intro acc hnd hnames hfresh
      rw [List.map_cons, List.nodup_cons] at hnames
      rw [List.foldl_cons]
      have hsig2 := lookupSignals_processDocs k p.1 p.2 (hnd p (List.mem_cons_self p rest)) 0 acc d
      by_cases hd : d ∈ p.2
      · rw [if_pos hd] at hsig2
        have hfr : p.1 ∉ (lookupSignals acc.signals d).map Prod.fst := by
          intro hmem
          exact hfresh p.1 hmem (List.mem_cons_self p.1 _)
        rw [setName_fresh _ _ _ hfr] at hsig2
        rw [ih _ (fun q hq => hnd q (List.mem_cons.mpr (Or.inr hq))) hnames.2 ?_, hsig2,
          rrfSignalsSpec_cons_mem p rest k d hd, List.append_assoc]
        · rw [Nat.zero_add]
          rfl
        · intro nm hnm
          rw [hsig2, List.map_append, List.mem_append] at hnm
          rcases hnm with hnm | hnm
          · intro hmem
            exact hfresh nm hnm (List.mem_cons.mpr (Or.inr hmem))
          · rw [List.map_cons, List.map_nil, List.mem_singleton] at hnm
            rw [hnm]
            exact hnames.1
      · rw [if_neg hd] at hsig2
        rw [ih _ (fun q hq => hnd q (List.mem_cons.mpr (Or.inr hq))) hnames.2 ?_, hsig2,
          rrfSignalsSpec_cons_notmem p rest k d hd]
        intro nm hnm
        rw [hsig2] at hnm
        intro hmem
        exact hfresh nm hnm (List.mem_cons.mpr (Or.inr hmem))

theorem lookupSignals_rrfMaps (L : List (String × List ℕ)) (k d : ℕ)
    (hnd : ∀ p ∈ L, p.2.Nodup) (hnames : (L.map Prod.fst).Nodup) :
    lookupSignals (rrfMaps L k).signals d = rrfSignalsSpec L k d := by
  rw [rrfMaps, signals_foldl k d L ⟨[], []⟩ hnd hnames (by intro nm hnm; simp [lookupSignals] at hnm)]
  rw [lookupSignals, List.nil_append]

theorem rankContrib_nonneg (k : ℕ) (docs : List ℕ) (d : ℕ) : 0 ≤ rankContrib k docs d := by
  rw [rankContrib]
  split
  · positivity
  · exact le_refl 0

theorem rankContrib_le (k : ℕ) (docs : List ℕ) (d : ℕ) :
    rankContrib k docs d ≤ 1 / ((k : ℚ) + 1) := by
  rw [rankContrib]
  split
  · apply one_div_le_one_div_of_le
    · positivity
    · have : (0 : ℚ) ≤ (docs.indexOf d : ℚ) := Nat.cast_nonneg _
      linarith
  · positivity

theorem rrfRankScore_nonneg (L : List (String × List ℕ)) (k d : ℕ) :
    0 ≤ rrfRankScore L k d := by
  rw [rrfRankScore]
  apply List.sum_nonneg
  intro a ha
  obtain ⟨p, _, hpa⟩ := List.mem_map.mp ha
  rw [← hpa]
  exact rankContrib_nonneg k p.2 d

theorem rrfRankScore_le (L : List (String × List ℕ)) (k d : ℕ) :
    rrfRankScore L k d ≤ (L.length : ℚ) * (1 / ((k : ℚ) + 1)) := by
  rw [rrfRankScore]
  have h1 : (L.map (fun p => rankContrib k p.2 d)).sum ≤
      (L.map (fun _ => 1 / ((k : ℚ) + 1))).sum :=
    List.sum_le_sum (fun p _ => rankContrib_le k p.2 d)
  refine le_trans h1 ?_
  rw [List.map_const', List.sum_replicate, nsmul_eq_mul]

/-- C6: on ranked lists with per-list-unique documents (and the distinct
signal names a Python dict guarantees), rrf_fusion assigns every reported
document the fused score that sums 1/(k + rank) over the signals containing
it with k = 60, reports exactly the per-signal contributions and the
similarity fused_score / (n * 1/(k+1)) which lies in [0, 1], and returns the
documents sorted by fused score descending truncated to the top limit (every
unreported document scores no higher than any reported one). -/
theorem c6_rrf_fusion (L : List (String × List ℕ)) (limit : ℕ)
    (hnd : ∀ p ∈ L, p.2.Nodup) (hnames : (L.map Prod.fst).Nodup) :
    (∀ e ∈ rrf_fusion L DEFAULT_RRF_K limit,
        e.rrf_score = rrfRankScore L DEFAULT_RRF_K e.id
        ∧ e.signals = rrfSignalsSpec L DEFAULT_RRF_K e.id
        ∧ e.similarity = e.rrf_score / ((L.length : ℚ) * (1 / ((DEFAULT_RRF_K : ℚ) + 1)))
        ∧ 0 ≤ e.similarity ∧ e.similarity ≤ 1)
    ∧ List.Pairwise (fun a b => b.rrf_score ≤ a.rrf_score) (rrf_fusion L DEFAULT_RRF_K limit)
    ∧ (rrf_fusion L DEFAULT_RRF_K limit).length ≤ limit
    ∧ (∀ d, (∃ p ∈ L, d ∈ p.2) →
        d ∉ (rrf_fusion L DEFAULT_RRF_K limit).map FusedDoc.id →
        ∀ e ∈ rrf_fusion L DEFAULT_RRF_K limit,
          rrfRankScore L DEFAULT_RRF_K d ≤ e.rrf_score) := by
  have hdef : rrf_fusion L DEFAULT_RRF_K limit =
      (((rrfMaps L DEFAULT_RRF_K).scores.insertionSort fusedGe).map (fun p =>
        { id := p.1
          rrf_score := p.2
          signals := lookupSignals (rrfMaps L DEFAULT_RRF_K).signals p.1
          similarity :=
            if 0 < (L.length : ℚ) * (1 / ((DEFAULT_RRF_K : ℚ) + 1)) then
              p.2 / ((L.length : ℚ) * (1 / ((DEFAULT_RRF_K : ℚ) + 1)))
            else 0 : FusedDoc })).take limit := rfl
  have hknd := nodup_keys_rrfMaps L DEFAULT_RRF_K
  have hscore : ∀ p ∈ (rrfMaps L DEFAULT_RRF_K).scores,
      p.2 = rrfRankScore L DEFAULT_RRF_K p.1 := by
    intro p hp
    rw [← lookupScore_eq_of_mem _ hknd p hp]
    rw [show lookupScore (rrfMaps L DEFAULT_RRF_K).scores p.1 =
        rrf_doc_score L DEFAULT_RRF_K p.1 from rfl]
    rw [rrf_doc_score_eq_spec, rrfScoreSpec_eq_rank L DEFAULT_RRF_K p.1 hnd]
  have hmain : ∀ e ∈ rrf_fusion L DEFAULT_RRF_K limit,
      ∃ p ∈ (rrfMaps L DEFAULT_RRF_K).scores,
        e = { id := p.1
              rrf_score := p.2
              signals := lookupSignals (rrfMaps L DEFAULT_RRF_K).signals p.1
              similarity :=
                if 0 < (L.length : ℚ) * (1 / ((DEFAULT_RRF_K : ℚ) + 1)) then
                  p.2 / ((L.length : ℚ) * (1 / ((DEFAULT_RRF_K : ℚ) + 1)))
                else 0 : FusedDoc } := by
    intro e he
    rw [hdef] at he
    have hfull := List.take_subset _ _ he
    obtain ⟨p, hp, hpe⟩ := List.mem_map.mp hfull
    exact ⟨p, (List.perm_insertionSort fusedGe _).subset hp, hpe.symm⟩
  have hLpos : ∀ p ∈ (rrfMaps L DEFAULT_RRF_K).scores,
      0 < (L.length : ℚ) * (1 / ((DEFAULT_RRF_K : ℚ) + 1)) := by
    intro p hp
    have hk : p.1 ∈ (rrfMaps L DEFAULT_RRF_K).scores.map Prod.fst :=
      List.mem_map_of_mem Prod.fst hp
    rw [mem_keys_rrfMaps] at hk
    obtain ⟨q, hq, _⟩ := hk
    have hlen : 0 < L.length := List.length_pos.mpr (List.ne_nil_of_mem hq)
    have : (0 : ℚ) < (L.length : ℚ) := by exact_mod_cast hlen
    positivity
  refine ⟨?_, ?_, ?_, ?_⟩
  · intro e he
    obtain ⟨p, hp, hpe⟩ := hmain e he
    have hpos := hLpos p hp
    subst hpe
    refine ⟨hscore p hp, ?_, ?_, ?_, ?_⟩
    · exact lookupSignals_rrfMaps L DEFAULT_RRF_K p.1 hnd hnames
    · show (if 0 < (L.length : ℚ) * (1 / ((DEFAULT_RRF_K : ℚ) + 1)) then
          p.2 / ((L.length : ℚ) * (1 / ((DEFAULT_RRF_K : ℚ) + 1))) else 0) = _
      rw [if_pos hpos]
    · show 0 ≤ (if 0 < (L.length : ℚ) * (1 / ((DEFAULT_RRF_K : ℚ) + 1)) then
          p.2 / ((L.length : ℚ) * (1 / ((DEFAULT_RRF_K : ℚ) + 1))) else 0)
      rw [if_pos hpos]
      apply div_nonneg ?_ (le_of_lt hpos)
      rw [hscore p hp]
      exact rrfRankScore_nonneg L DEFAULT_RRF_K p.1
    · show (if 0 < (L.length : ℚ) * (1 / ((DEFAULT_RRF_K : ℚ) + 1)) then
          p.2 / ((L.length : ℚ) * (1 / ((DEFAULT_RRF_K : ℚ) + 1))) else 0) ≤ 1
      rw [if_pos hpos, div_le_one hpos, hscore p hp]
      exact rrfRankScore_le L DEFAULT_RRF_K p.1
  · rw [hdef]
    refine List.Pairwise.sublist (List.take_sublist _ _) ?_
    rw [List.pairwise_map]
    exact List.sorted_insertionSort fusedGe (rrfMaps L DEFAULT_RRF_K).scores
  · rw [hdef, List.length_take, List.length_map]
    exact min_le_left _ _
  · intro d hd hnot e he
    have hkmem : d ∈ (rrfMaps L DEFAULT_RRF_K).scores.map Prod.fst :=
      (mem_keys_rrfMaps L DEFAULT_RRF_K d).mpr hd
    obtain ⟨pd, hpd, hpdid⟩ := List.mem_map.mp hkmem
    have hpds : pd ∈ (rrfMaps L DEFAULT_RRF_K).scores.insertionSort fusedGe :=
      (List.perm_insertionSort fusedGe _).symm.subset hpd
    have hfullpw : List.Pairwise (fun a b : FusedDoc => b.rrf_score ≤ a.rrf_score)
        (((rrfMaps L DEFAULT_RRF_K).scores.insertionSort fusedGe).map (fun p =>
          { id := p.1
            rrf_score := p.2
            signals := lookupSignals (rrfMaps L DEFAULT_RRF_K).signals p.1
            similarity :=
              if 0 < (L.length : ℚ) * (1 / ((DEFAULT_RRF_K : ℚ) + 1)) then
                p.2 / ((L.length : ℚ) * (1 / ((DEFAULT_RRF_K : ℚ) + 1)))
              else 0 : FusedDoc })) := by
      rw [List.pairwise_map]
      exact List.sorted_insertionSort fusedGe (rrfMaps L DEFAULT_RRF_K).scores
    have hsplit := List.take_append_drop limit
        (((rrfMaps L DEFAULT_RRF_K).scores.insertionSort fusedGe).map (fun p =>
          { id := p.1
            rrf_score := p.2
            signals := lookupSignals (rrfMaps L DEFAULT_RRF_K).signals p.1
            similarity :=
              if 0 < (L.length : ℚ) * (1 / ((DEFAULT_RRF_K : ℚ) + 1)) then
                p.2 / ((L.length : ℚ) * (1 / ((DEFAULT_RRF_K : ℚ) + 1)))
              else 0 : FusedDoc }))
    have hed := List.mem_map_of_mem (fun p : ℕ × ℚ =>
      { id := p.1
        rrf_score := p.2
        signals := lookupSignals (rrfMaps L DEFAULT_RRF_K).signals p.1
        similarity :=
          if 0 < (L.length : ℚ) * (1 / ((DEFAULT_RRF_K : ℚ) + 1)) then
            p.2 / ((L.length : ℚ) * (1 / ((DEFAULT_RRF_K : ℚ) + 1)))
          else 0 : FusedDoc }) hpds
    rw [← hsplit, List.mem_append] at hed
    rcases hed with hed | hed
    · exfalso
      apply hnot
      rw [hdef, ← hpdid]
      exact List.mem_map_of_mem FusedDoc.id hed
    · rw [← hsplit] at hfullpw
      rw [List.pairwise_append] at hfullpw
      have hle := hfullpw.2.2 e (by rw [hdef] at he; exact he) _ hed
      have hedscore := hscore pd hpd
      rw [hpdid] at hedscore
      rw [← hedscore]
      exact hle

/-- C6 witness: the fusion theorem applied to two concrete ranked lists with
limit 1. -/
theorem c6_rrf_fusion_witness :
    (∀ e ∈ rrf_fusion [("a", [1, 2]), ("b", [2])] DEFAULT_RRF_K 1,
        e.rrf_score = rrfRankScore [("a", [1, 2]), ("b", [2])] DEFAULT_RRF_K e.id
        ∧ e.signals = rrfSignalsSpec [("a", [1, 2]), ("b", [2])] DEFAULT_RRF_K e.id
        ∧ e.similarity = e.rrf_score /
            ((([("a", [1, 2]), ("b", [2])] : List (String × List ℕ)).length : ℚ) *
              (1 / ((DEFAULT_RRF_K : ℚ) + 1)))
        ∧ 0 ≤ e.similarity ∧ e.similarity ≤ 1)
    ∧ List.Pairwise (fun a b => b.rrf_score ≤ a.rrf_score)
        (rrf_fusion [("a", [1, 2]), ("b", [2])] DEFAULT_RRF_K 1)
    ∧ (rrf_fusion [("a", [1, 2]), ("b", [2])] DEFAULT_RRF_K 1).length ≤ 1
    ∧ (∀ d, (∃ p ∈ ([("a", [1, 2]), ("b", [2])] : List (String × List ℕ)), d ∈ p.2) →
        d ∉ (rrf_fusion [("a", [1, 2]), ("b", [2])] DEFAULT_RRF_K 1).map FusedDoc.id →
        ∀ e ∈ rrf_fusion [("a", [1, 2]), ("b", [2])] DEFAULT_RRF_K 1,
          rrfRankScore [("a", [1, 2]), ("b", [2])] DEFAULT_RRF_K d ≤ e.rrf_score) :=
  c6_rrf_fusion [("a", [1, 2]), ("b", [2])] 1 (by decide) (by decide)

/-- C7 counterexample: with a single signal list in which document 0 sits at
rank 1 and document 1 occurs twice, at ranks 2 and 3 (so only ever at rank
greater than r = 1), the fused score of 1 is 1/62 + 1/63, which exceeds the
1/61 of document 0: the claim fails on inputs where a document occurs more
than once in one list. -/
theorem c7_counterexample :
    ((0 : ℕ) ∈ [0, 1, 1] ∧ ([0, 1, 1] : List ℕ).indexOf 0 + 1 ≤ 1)
    ∧ (∀ i, i < 3 → ([0, 1, 1] : List ℕ).get? i = some 1 → 1 < i + 1)
    ∧ rrf_doc_score [("s", [0, 1, 1])] DEFAULT_RRF_K 0 <
        rrf_doc_score [("s", [0, 1, 1])] DEFAULT_RRF_K 1 := by
  refine ⟨by decide, by decide, ?_⟩
  rw [rrf_doc_score_eq_spec, rrf_doc_score_eq_spec]
  simp [rrfScoreSpec, contribFrom, DEFAULT_RRF_K]
  norm_num

/-- C7 (amended): when every document occurs at most once per signal list, a
document d placed at rank at most r in every list has fused score at least
that of any document e that appears, wherever it appears, only at rank
greater than r. -/
theorem c7_rrf_rank_monotonic (L : List (String × List ℕ)) (k r d e : ℕ)
    (hnd : ∀ p ∈ L, p.2.Nodup)
    (hd : ∀ p ∈ L, d ∈ p.2 ∧ p.2.indexOf d + 1 ≤ r)
    (he : ∀ p ∈ L, e ∈ p.2 → r + 1 ≤ p.2.indexOf e + 1) :
    rrf_doc_score L k e ≤ rrf_doc_score L k d := by
  rw [rrf_doc_score_eq_spec, rrf_doc_score_eq_spec, rrfScoreSpec_eq_rank L k e hnd,
    rrfScoreSpec_eq_rank L k d hnd, rrfRankScore, rrfRankScore]
  apply List.sum_le_sum
  intro p hp
  have hdp := hd p hp
  rw [rankContrib, rankContrib, if_pos hdp.1]
  by_cases hm : e ∈ p.2
  · rw [if_pos hm]
    have hre := he p hp hm
    apply one_div_le_one_div_of_le
    · positivity
    · have hidx : p.2.indexOf d ≤ p.2.indexOf e := by omega
      have hc : (p.2.indexOf d : ℚ) ≤ (p.2.indexOf e : ℚ) := by exact_mod_cast hidx
      linarith
  · rw [if_neg hm]
    positivity

/-- C7 witness: the amended theorem applied to one list with d = 5 at rank 1
and e = 6 at rank 2, with r = 1. -/
theorem c7_rrf_rank_monotonic_witness :
    rrf_doc_score [("s", [5, 6])] DEFAULT_RRF_K 6 ≤
      rrf_doc_score [("s", [5, 6])] DEFAULT_RRF_K 5 :=
  c7_rrf_rank_monotonic [("s", [5, 6])] DEFAULT_RRF_K 1 5 6
    (by decide) (by decide) (by decide)
